import Mathlib

/-!
Shallow embedding of the faer-rs dense solver layer
(`src/faer/src/linalg/solvers.rs`, `src/faer/src/perm/permown.rs`,
`src/faer/src/linalg/qr/col_pivoting/reconstruct.rs`) and proofs of the
specification claims about it.

The scalar type `T : ComplexField` of the source is instantiated at the
exact complex field over the rationals (`CQ` below), so that conjugation,
real part, reciprocal and the field operations are all modelled exactly.
Matrices are modelled as a shape together with a total entry function;
entries outside the shape are irrelevant and all statements are pointwise
over in-bounds indices, except where the constructions force a canonical
value (zero) everywhere.

External collaborators of the core (the matrix triangular-copy primitives,
`matmul`, the Householder application and the factorization kernels) are
not part of the sources; following the specification they are either
modelled from the spec (marked `Modelled from the spec:`) or taken as
universally quantified parameters when only the wrapper's plumbing around
them is at issue.
-/

namespace Faer

/-- Exact complex numbers over `ℚ`, the model of the `ComplexField` scalar
type of the source (`faer_traits`): a real and an imaginary part. -/
structure CQ where
  re : ℚ
  im : ℚ
deriving DecidableEq, Repr

namespace CQ

/-- Addition of model scalars. -/
def add (x y : CQ) : CQ := ⟨x.re + y.re, x.im + y.im⟩

/-- Multiplication of model scalars. -/
def mul (x y : CQ) : CQ := ⟨x.re * y.re - x.im * y.im, x.re * y.im + x.im * y.re⟩

/-- Negation (`neg` in the source's math utils). -/
def neg (x : CQ) : CQ := ⟨-x.re, -x.im⟩

/-- Complex conjugation (`conj` in the source's math utils). -/
def conj (x : CQ) : CQ := ⟨x.re, -x.im⟩

/-- `from_real`: embeds a real scalar. -/
def fromReal (r : ℚ) : CQ := ⟨r, 0⟩

/-- `real`: the real part of a scalar, as used by `make_self_adjoint` and
the SVD/eigen solve loops. -/
def real (x : CQ) : ℚ := x.re

/-- `mul_real`: multiply by a real scalar. -/
def mulReal (x : CQ) (r : ℚ) : CQ := ⟨x.re * r, x.im * r⟩

instance : Zero CQ := ⟨⟨0, 0⟩⟩
instance : One CQ := ⟨⟨1, 0⟩⟩
instance : Add CQ := ⟨add⟩
instance : Neg CQ := ⟨neg⟩

instance : AddCommMonoid CQ where
  add_assoc a b c := by
    show CQ.add (CQ.add a b) c = CQ.add a (CQ.add b c)
    simp only [CQ.add]
    congr 1 <;> ring
  zero_add a := by
    show CQ.add ⟨0, 0⟩ a = a
    simp [CQ.add]
  add_zero a := by
    show CQ.add a ⟨0, 0⟩ = a
    simp [CQ.add]
  add_comm a b := by
    show CQ.add a b = CQ.add b a
    simp only [CQ.add]
    congr 1 <;> ring
  nsmul := nsmulRec

/-- `conj` as an additive monoid hom, to push it through finite sums. -/
def conjHom : CQ →+ CQ where
  toFun := conj
  map_zero' := by simp [conj]; rfl
  map_add' x y := by
    show conj (CQ.add x y) = CQ.add (conj x) (conj y)
    simp only [conj, CQ.add]
    congr 1
    ring

/-- The imaginary part as an additive monoid hom, to push it through
finite sums. -/
def imHom : CQ →+ ℚ where
  toFun := im
  map_zero' := rfl
  map_add' _ _ := rfl

end CQ

/-- Dense matrix model: a shape and a total entry function. This models the
source's owned `Mat` / views `MatRef`, `MatMut` (the storage layout, strides
and view mechanics of `src/faer/src/mat/mod.rs` are collapsed into the entry
function; the solver layer only reads and writes entries). -/
structure GMat (α : Type) where
  nrows : Nat
  ncols : Nat
  entry : Nat → Nat → α

/-- Complex matrix (scalar `T : ComplexField` of the source). -/
abbrev Mat := GMat CQ

/-- Real matrix (scalar `T : RealField`, used by `Eigen::new_from_real`). -/
abbrev RMat := GMat ℚ

namespace GMat

/-- `Mat::zeros(m, n)`. -/
def zeros {α : Type} [Zero α] (m n : Nat) : GMat α := ⟨m, n, fun _ _ => 0⟩

/-- Functional update of one entry, used to model in-place writes. -/
def setEntry {α : Type} (A : GMat α) (i j : Nat) (v : α) : GMat α :=
  ⟨A.nrows, A.ncols, fun i' j' => if i' = i ∧ j' = j then v else A.entry i' j'⟩

/-- `transpose()` of a matrix view. -/
def transpose {α : Type} (A : GMat α) : GMat α :=
  ⟨A.ncols, A.nrows, fun i j => A.entry j i⟩

/-- `adjoint()` of a complex matrix view: conjugate transpose. -/
def adjoint (A : Mat) : Mat :=
  ⟨A.ncols, A.nrows, fun i j => CQ.conj (A.entry j i)⟩

/-- `get(.., ..size)`: the sub-view of the leading `size` columns. -/
def takeCols {α : Type} (A : GMat α) (size : Nat) : GMat α :=
  ⟨A.nrows, min size A.ncols, A.entry⟩

/-- In-bounds pointwise agreement of two matrices of the same shape. -/
def EqOn {α : Type} (A B : GMat α) : Prop :=
  A.nrows = B.nrows ∧ A.ncols = B.ncols ∧
    ∀ i, i < A.nrows → ∀ j, j < A.ncols → A.entry i j = B.entry i j

instance {α : Type} [DecidableEq α] (A B : GMat α) : Decidable (EqOn A B) := by
  unfold EqOn; infer_instance

end GMat

/-- The `Conj` flag of the source (`faer_traits`): whether an operation is
applied to a matrix or to its elementwise conjugate. -/
inductive Conj where
  | no
  | yes
deriving DecidableEq, Repr

namespace Conj

/-- `Conj::compose`: composition of two conjugation flags. -/
def compose : Conj → Conj → Conj
  | .no, c => c
  | .yes, .no => .yes
  | .yes, .yes => .no

/-- Elementwise application of a conjugation flag to a scalar, as performed
by `matmul_with_conj`. -/
def apply : Conj → CQ → CQ
  | .no, x => x
  | .yes, x => CQ.conj x

end Conj

/-- `matmul` (Modelled from the spec: §6.1 kernel primitive `matmul(C,
accum, A, conjA, B, conjB, α, par)`, general matrix multiply with
conjugation flags; the solver layer always calls it with `Accum::Replace`
and `α = one()`): `C[i,j] = Σ_k conjA?(A[i,k]) · conjB?(B[k,j])` with the
sum ranging over `A`'s column count. -/
def matmulConj (A : Mat) (cA : Conj) (B : Mat) (cB : Conj) : Mat :=
  ⟨A.nrows, B.ncols, fun i j =>
    ∑ k ∈ Finset.range A.ncols, CQ.mul (cA.apply (A.entry i k)) (cB.apply (B.entry k j))⟩

/-- `matmul` without conjugation flags (spec §6.1, same primitive with both
flags absent). -/
def matmul (A B : Mat) : Mat := matmulConj A .no B .no

/-- The permutation object of `src/faer/src/perm/permown.rs`, at the index
type `I = usize`, `N = usize`: a pair of index arrays. -/
structure Perm where
  forward : List Nat
  inverse : List Nat
deriving DecidableEq, Repr

namespace Perm

/-- `I::Signed::MAX` for `I = usize` on a 64-bit target: `isize::MAX`. -/
def signedMax : Nat := 2 ^ 63 - 1

/-- `Perm::new_unchecked`: asserts `forward.len() == inverse.len()` and
`n <= I::Signed::MAX` (a failed assert panics, modelled as `none`), then
stores the two arrays without any further validity check. -/
def new_unchecked (forward inverse : List Nat) : Option Perm :=
  if forward.length = inverse.length ∧ forward.length ≤ signedMax then
    some ⟨forward, inverse⟩
  else
    none

/-- `Perm::into_inverse`: swaps the two stored arrays. -/
def into_inverse (p : Perm) : Perm := ⟨p.inverse, p.forward⟩

end Perm

/-- Modelled from the spec: the triangular copy primitive
`copy_from_triangular_lower` of the matrix layer (out of scope per spec §1;
spec §4.2 "a freshly zeroed lower-triangular copy"): copies the entries
`(i, j)` with `j ≤ i` of the source into the destination, leaving the rest
of the destination unchanged. -/
def copyFromTriangularLower {α : Type} (dst src : GMat α) : GMat α :=
  ⟨dst.nrows, dst.ncols, fun i j =>
    if i < dst.nrows ∧ j < dst.ncols ∧ j ≤ i then src.entry i j else dst.entry i j⟩

/-- Modelled from the spec: `copy_from_triangular_upper`, copies entries
`(i, j)` with `i ≤ j` (diagonal included). -/
def copyFromTriangularUpper {α : Type} (dst src : GMat α) : GMat α :=
  ⟨dst.nrows, dst.ncols, fun i j =>
    if i < dst.nrows ∧ j < dst.ncols ∧ i ≤ j then src.entry i j else dst.entry i j⟩

/-- Modelled from the spec: `copy_from_strict_triangular_lower`, copies
entries `(i, j)` with `j < i` (diagonal excluded). -/
def copyFromStrictTriangularLower {α : Type} (dst src : GMat α) : GMat α :=
  ⟨dst.nrows, dst.ncols, fun i j =>
    if i < dst.nrows ∧ j < dst.ncols ∧ j < i then src.entry i j else dst.entry i j⟩

/-- Modelled from the spec: the zip primitive
`z!(&mut A).for_each_triangular_upper(Diag::Skip, |x| *x = zero())` of the
matrix layer: zeroes the strictly upper triangular entries. -/
def zeroStrictUpper {α : Type} [Zero α] (A : GMat α) : GMat α :=
  ⟨A.nrows, A.ncols, fun i j =>
    if i < A.nrows ∧ j < A.ncols ∧ i < j then 0 else A.entry i j⟩

/-- Modelled from the spec: `for_each_triangular_lower(Diag::Skip, zero)`,
zeroes the strictly lower triangular entries. -/
def zeroStrictLower {α : Type} [Zero α] (A : GMat α) : GMat α :=
  ⟨A.nrows, A.ncols, fun i j =>
    if i < A.nrows ∧ j < A.ncols ∧ j < i then 0 else A.entry i j⟩

/-- Modelled from the spec: `A.diagonal_mut().fill(v)`; the diagonal of an
`m×n` matrix has length `min m n`. -/
def fillDiagonal {α : Type} (A : GMat α) (v : α) : GMat α :=
  ⟨A.nrows, A.ncols, fun i j =>
    if i = j ∧ i < min A.nrows A.ncols then v else A.entry i j⟩

/-- `split_LU` (`src/faer/src/linalg/solvers.rs:280`): splits an in-place
factored `m×n` matrix into its `L` and `U` parts, mirroring both branches
and the statement order of the source. -/
def split_LU (LU : Mat) : Mat × Mat :=
  let m := LU.nrows
  let n := LU.ncols
  let size := min m n
  if m ≥ n then
    let L := LU
    let U := GMat.zeros size size
    let U := copyFromTriangularUpper U L
    let L := zeroStrictUpper L
    let L := fillDiagonal L 1
    (L, U)
  else
    let U := LU
    let L := GMat.zeros size size
    let L := copyFromStrictTriangularLower L U
    let U := zeroStrictLower U
    let L := fillDiagonal L 1
    (L, U)

/-- Diagonal-matrix model (`Diag<T>` of the source): a length and an entry
function. -/
structure Diag where
  dim : Nat
  entry : Nat → CQ

namespace Diag

/-- `Diag::zeros(n)`. -/
def zeros (n : Nat) : Diag := ⟨n, fun _ => 0⟩

/-- Functional update of one entry, modelling in-place writes `S[j] = v`. -/
def set (S : Diag) (j : Nat) (v : CQ) : Diag :=
  ⟨S.dim, fun j' => if j' = j then v else S.entry j'⟩

end Diag

/-- The LLT error type (`LdltError`/`LltError` are re-exported from the
kernel layer; spec §7: `NotPositiveDefinite(index)` for Cholesky). -/
inductive LltError where
  | notPositiveDefinite (index : Nat)
deriving DecidableEq, Repr

/-- LDLT error type (spec §7: `ZeroPivot(index)`). -/
inductive LdltError where
  | zeroPivot (index : Nat)
deriving DecidableEq, Repr

/-- The `side` argument of the self-adjoint constructors. -/
inductive Side where
  | lower
  | upper
deriving DecidableEq, Repr

/-- `Cholesky<T>` (`solvers.rs:38`): stores `L`. -/
structure Cholesky where
  L : Mat

/-- `Ldlt<T>` (`solvers.rs:43`): stores `L` and `D`. -/
structure Ldlt where
  L : Mat
  D : Diag

/-- `Lblt<T>` (`solvers.rs:49`): stores `L`, the block diagonal, the block
sub-diagonal and the pivoting permutation. -/
structure Lblt where
  L : Mat
  B_diag : Diag
  B_subdiag : Diag
  P : Perm

/-- `PartialPivLu<T>` (`solvers.rs:57`). -/
structure PartialPivLu where
  L : Mat
  U : Mat
  P : Perm

/-- `FullPivLu<T>` (`solvers.rs:64`). -/
structure FullPivLu where
  L : Mat
  U : Mat
  P : Perm
  Q : Perm

/-- `Qr<T>` (`solvers.rs:72`). -/
structure Qr where
  Q_basis : Mat
  Q_coeff : Mat
  R : Mat

/-- `ColPivQr<T>` (`solvers.rs:79`). -/
structure ColPivQr where
  Q_basis : Mat
  Q_coeff : Mat
  R : Mat
  P : Perm

/-- `Svd<T>` (`solvers.rs:87`). -/
structure Svd where
  U : Mat
  V : Mat
  S : Diag

/-- `SelfAdjointEigen<T>` (`solvers.rs:94`). -/
structure SelfAdjointEigen where
  U : Mat
  S : Diag

/-- `Eigen<T>` (`solvers.rs:100`): complex eigenvectors and eigenvalues. -/
structure Eigen where
  U : Mat
  S : Diag

/-- `ShapeCore::nrows` for `Cholesky`: `L.nrows()`. -/
def Cholesky.nrows (F : Cholesky) : Nat := F.L.nrows

/-- `ShapeCore::ncols` for `Cholesky`: `L.ncols()`. -/
def Cholesky.ncols (F : Cholesky) : Nat := F.L.ncols

/-- `ShapeCore` for `Ldlt`. -/
def Ldlt.nrows (F : Ldlt) : Nat := F.L.nrows

def Ldlt.ncols (F : Ldlt) : Nat := F.L.ncols

/-- `ShapeCore` for `Lblt`. -/
def Lblt.nrows (F : Lblt) : Nat := F.L.nrows

def Lblt.ncols (F : Lblt) : Nat := F.L.ncols

/-- `ShapeCore` for `PartialPivLu`: `L.nrows()` / `U.ncols()`. -/
def PartialPivLu.nrows (F : PartialPivLu) : Nat := F.L.nrows

def PartialPivLu.ncols (F : PartialPivLu) : Nat := F.U.ncols

/-- `ShapeCore` for `FullPivLu`. -/
def FullPivLu.nrows (F : FullPivLu) : Nat := F.L.nrows

def FullPivLu.ncols (F : FullPivLu) : Nat := F.U.ncols

/-- `ShapeCore` for `Qr`: `Q_basis.nrows()` / `R.ncols()`. -/
def Qr.nrows (F : Qr) : Nat := F.Q_basis.nrows

def Qr.ncols (F : Qr) : Nat := F.R.ncols

/-- `ShapeCore` for `ColPivQr`. -/
def ColPivQr.nrows (F : ColPivQr) : Nat := F.Q_basis.nrows

def ColPivQr.ncols (F : ColPivQr) : Nat := F.R.ncols

/-- `ShapeCore` for `Svd`: `U.nrows()` / `V.nrows()`. -/
def Svd.nrows (F : Svd) : Nat := F.U.nrows

def Svd.ncols (F : Svd) : Nat := F.V.nrows

/-- `ShapeCore` for `SelfAdjointEigen`: both are `U.nrows()`. -/
def SelfAdjointEigen.nrows (F : SelfAdjointEigen) : Nat := F.U.nrows

def SelfAdjointEigen.ncols (F : SelfAdjointEigen) : Nat := F.U.nrows

/-- `Cholesky::new_imp` (`solvers.rs:124`), with the external LLT kernel
(`cholesky_in_place`, spec §6.1) as a parameter: the kernel either fails
with an `LltError` (propagated unchanged by `?`) or returns the in-place
factored matrix, whose strict upper triangle is then zeroed. -/
def Cholesky.new_imp (kernel : Mat → Except LltError Mat) (L : Mat) :
    Except LltError Cholesky :=
  match kernel L with
  | .error e => .error e
  | .ok L' => .ok ⟨zeroStrictUpper L'⟩

/-- `Cholesky::new` (`solvers.rs:107`): asserts the input square (`none`
models the panic), builds the working copy from the requested triangle of
the input over a zeroed matrix, and calls `new_imp`. -/
def Cholesky.new (kernel : Mat → Except LltError Mat) (A : Mat) (side : Side) :
    Option (Except LltError Cholesky) :=
  if A.nrows = A.ncols then
    let n := A.nrows
    let L := GMat.zeros n n
    let L := match side with
      | .lower => copyFromTriangularLower L A
      | .upper => copyFromTriangularLower L (GMat.adjoint A)
    some (Cholesky.new_imp kernel L)
  else
    none

/-- `Ldlt::new_imp` (`solvers.rs:171`): kernel factors in place; `D` copies
the diagonal, then the diagonal is set to one and the strict upper zeroed. -/
def Ldlt.new_imp (kernel : Mat → Except LdltError Mat) (L : Mat) :
    Except LdltError Ldlt :=
  match kernel L with
  | .error e => .error e
  | .ok L' =>
    let D : Diag := ⟨L'.nrows, fun i => L'.entry i i⟩
    .ok ⟨zeroStrictUpper (fillDiagonal L' 1), D⟩

/-- `Ldlt::new` (`solvers.rs:154`). -/
def Ldlt.new (kernel : Mat → Except LdltError Mat) (A : Mat) (side : Side) :
    Option (Except LdltError Ldlt) :=
  if A.nrows = A.ncols then
    let n := A.nrows
    let L := GMat.zeros n n
    let L := match side with
      | .lower => copyFromTriangularLower L A
      | .upper => copyFromTriangularLower L (GMat.adjoint A)
    some (Ldlt.new_imp kernel L)
  else
    none

/-- Output of the Bunch–Kaufman kernel (`cholesky_in_place` of
`bunch_kaufman::factor`, spec §6.1 `bunch_kaufman_factor`): the in-place
factored matrix, the sub-diagonal, and the contents of the two permutation
buffers. The buffers are fixed-length slices of length `n` in the source,
so the kernel is modelled as returning their contents as functions. -/
structure BkOut where
  L : Mat
  subdiag : Diag
  perm_fwd : Nat → Nat
  perm_bwd : Nat → Nat

/-- `Lblt::new_imp` (`solvers.rs:222`): the Bunch–Kaufman kernel is
infallible; the diagonal is copied out, the diagonal set to one, the strict
upper zeroed, and the permutation wrapped with `Perm::new_unchecked`
(whose assert is modelled by the `Option`). -/
def Lblt.new_imp (kernel : Mat → BkOut) (L : Mat) : Option Lblt :=
  let n := L.nrows
  let out := kernel L
  let diag : Diag := ⟨out.L.nrows, fun i => out.L.entry i i⟩
  let L' := zeroStrictUpper (fillDiagonal out.L 1)
  match Perm.new_unchecked ((List.range n).map out.perm_fwd)
      ((List.range n).map out.perm_bwd) with
  | some P => some ⟨L', diag, out.subdiag, P⟩
  | none => none

/-- `Lblt::new` (`solvers.rs:209`). -/
def Lblt.new (kernel : Mat → BkOut) (A : Mat) (side : Side) : Option (Option Lblt) :=
  if A.nrows = A.ncols then
    let n := A.nrows
    let L := GMat.zeros n n
    let L := match side with
      | .lower => copyFromTriangularLower L A
      | .upper => copyFromTriangularLower L (GMat.adjoint A)
    some (Lblt.new_imp kernel L)
  else
    none

/-- `Cholesky::solve_in_place_with_conj` (`solvers.rs:910`): forwards the
stored `L`, the `conj` flag and the right-hand side to the external LLT
kernel solver (spec §6.1), taken as the parameter `k`. -/
def Cholesky.solve_in_place_with_conj (k : Mat → Conj → Mat → Mat)
    (F : Cholesky) (conj : Conj) (rhs : Mat) : Mat :=
  k F.L conj rhs

/-- `Cholesky::solve_transpose_in_place_with_conj` (`solvers.rs:933`): the
same kernel call with `conj.compose(Conj::Yes)`. -/
def Cholesky.solve_transpose_in_place_with_conj (k : Mat → Conj → Mat → Mat)
    (F : Cholesky) (conj : Conj) (rhs : Mat) : Mat :=
  k F.L (conj.compose .yes) rhs

/-- `Ldlt::solve_in_place_with_conj` (`solvers.rs:1008`). -/
def Ldlt.solve_in_place_with_conj (k : Mat → Diag → Conj → Mat → Mat)
    (F : Ldlt) (conj : Conj) (rhs : Mat) : Mat :=
  k F.L F.D conj rhs

/-- `Ldlt::solve_transpose_in_place_with_conj` (`solvers.rs:1032`). -/
def Ldlt.solve_transpose_in_place_with_conj (k : Mat → Diag → Conj → Mat → Mat)
    (F : Ldlt) (conj : Conj) (rhs : Mat) : Mat :=
  k F.L F.D (conj.compose .yes) rhs

/-- `Lblt::solve_in_place_with_conj` (`solvers.rs:1102`). -/
def Lblt.solve_in_place_with_conj (k : Mat → Diag → Diag → Conj → Perm → Mat → Mat)
    (F : Lblt) (conj : Conj) (rhs : Mat) : Mat :=
  k F.L F.B_diag F.B_subdiag conj F.P rhs

/-- `Lblt::solve_transpose_in_place_with_conj` (`solvers.rs:1128`). -/
def Lblt.solve_transpose_in_place_with_conj (k : Mat → Diag → Diag → Conj → Perm → Mat → Mat)
    (F : Lblt) (conj : Conj) (rhs : Mat) : Mat :=
  k F.L F.B_diag F.B_subdiag (conj.compose .yes) F.P rhs

/-- `make_self_adjoint` (`solvers.rs:957`): sets each diagonal entry to the
real part of itself and each strict upper entry to the conjugate of the
mirror strict lower entry. The loop writes only the diagonal and the strict
upper triangle and reads only the (unmodified) strict lower triangle, so it
is embedded by its per-entry effect. -/
def make_self_adjoint (A : Mat) : Mat :=
  ⟨A.nrows, A.ncols, fun i j =>
    if j < A.nrows ∧ i = j then CQ.fromReal (CQ.real (A.entry i j))
    else if j < A.nrows ∧ i < j then CQ.conj (A.entry j i)
    else A.entry i j⟩

/-- The column-scaling loop shared by the SVD and self-adjoint-eigen
reconstruct/inverse (`solvers.rs:1876`, `:1909`, `:2035`, `:2067`): over a
zeroed `m×size` matrix, `out[(i, j)] = mul_real(U[(i, j)], s(j))`. -/
def scaleColsReal (U : Mat) (m size : Nat) (s : Nat → ℚ) : Mat :=
  ⟨m, size, fun i j => if i < m ∧ j < size then CQ.mulReal (U.entry i j) (s j) else 0⟩

/-- The row-scaling loop of the SVD / self-adjoint-eigen solves
(`solvers.rs:1745`, `:1789`, `:1843`, `:1958`, `:2002`):
`tmp[(i, j)] = mul_real(tmp[(i, j)], recip(real(S[i])))` for `i < n`,
`j < k`. -/
def scaleRowsRecip (tmp : Mat) (n k : Nat) (S : Diag) : Mat :=
  ⟨tmp.nrows, tmp.ncols, fun i j =>
    if i < n ∧ j < k then CQ.mulReal (tmp.entry i j) (CQ.real (S.entry i))⁻¹
    else tmp.entry i j⟩

/-- The three-step solve routine of the SVD solves, abstracted over the two
(matrix, conjugation flag) pairs it is instantiated with: step 1 multiplies
the right-hand side by the transpose of the first pair's matrix under its
flag, step 2 divides row `i` by `real(S[i])`, step 3 multiplies by the
second pair's matrix under its flag. -/
def svdSolveSteps (first second : Mat × Conj) (S : Diag) (scaleDim : Nat) (rhs : Mat) : Mat :=
  let tmp := matmulConj (GMat.transpose first.1) first.2 rhs .no
  let tmp := scaleRowsRecip tmp scaleDim rhs.ncols S
  matmulConj second.1 second.2 tmp .no

/-- `Svd::solve_in_place_with_conj` body (`solvers.rs:1721`, after its
shape assert): `tmp = conj?(conj ⊕ Yes)(Uᵀ)·rhs`; row-scale by
`recip(real(S[i]))`; `rhs = conj?(conj)(V)·tmp`. -/
def Svd.solve_in_place_with_conj (F : Svd) (conj : Conj) (rhs : Mat) : Mat :=
  let n := F.nrows
  let k := rhs.ncols
  let tmp := matmulConj (GMat.transpose F.U) (conj.compose .yes) rhs .no
  let tmp := scaleRowsRecip tmp n k F.S
  matmulConj F.V conj tmp .no

/-- `Svd::solve_transpose_in_place_with_conj` body (`solvers.rs:1765`):
`tmp = conj?(conj)(Vᵀ)·rhs`; row-scale; `rhs = conj?(conj ⊕ Yes)(U)·tmp`. -/
def Svd.solve_transpose_in_place_with_conj (F : Svd) (conj : Conj) (rhs : Mat) : Mat :=
  let n := F.nrows
  let k := rhs.ncols
  let tmp := matmulConj (GMat.transpose F.V) conj rhs .no
  let tmp := scaleRowsRecip tmp n k F.S
  matmulConj F.U (conj.compose .yes) tmp .no

/-- `Svd::solve_lstsq_in_place_with_conj` body (`solvers.rs:1811`): the
same three steps using the leading `min(m, n)` columns of `U` and `V`. -/
def Svd.solve_lstsq_in_place_with_conj (F : Svd) (conj : Conj) (rhs : Mat) : Mat :=
  let m := F.nrows
  let n := F.ncols
  let size := min m n
  let U := F.U.takeCols size
  let V := F.V.takeCols size
  let k := rhs.ncols
  let tmp := matmulConj (GMat.transpose U) (conj.compose .yes) rhs .no
  let tmp := scaleRowsRecip tmp size k F.S
  matmulConj V conj tmp .no

/-- `SelfAdjointEigen::reconstruct` (`solvers.rs:2023`): scale the leading
`min(m, n)` columns of `U` by `real(S[j])` and multiply by the adjoint of
the same columns of `U` (the source reads `V = U`). -/
def SelfAdjointEigen.reconstruct (F : SelfAdjointEigen) : Mat :=
  let m := F.nrows
  let n := F.ncols
  let size := min m n
  let U := F.U.takeCols size
  let V := F.U.takeCols size
  let UxS := scaleColsReal U m size (fun j => CQ.real (F.S.entry j))
  matmul UxS (GMat.adjoint V)

/-- `SelfAdjointEigen::inverse` (`solvers.rs:2056`): scale the columns of
`U` by `recip(real(S[j]))` and multiply by `U.adjoint()`. -/
def SelfAdjointEigen.inverse (F : SelfAdjointEigen) : Mat :=
  let n := F.nrows
  let VxS := scaleColsReal F.U n n (fun j => (CQ.real (F.S.entry j))⁻¹)
  matmul VxS (GMat.adjoint F.U)

/-- `SelfAdjointEigen::solve_in_place_with_conj` body (`solvers.rs:1934`,
after its shape assert): the SVD pattern with `V = U`. -/
def SelfAdjointEigen.solve_in_place_with_conj (F : SelfAdjointEigen) (conj : Conj)
    (rhs : Mat) : Mat :=
  let n := F.nrows
  let k := rhs.ncols
  let tmp := matmulConj (GMat.transpose F.U) (conj.compose .yes) rhs .no
  let tmp := scaleRowsRecip tmp n k F.S
  matmulConj F.U conj tmp .no

/-- `SelfAdjointEigen::solve_transpose_in_place_with_conj` body
(`solvers.rs:1978`). -/
def SelfAdjointEigen.solve_transpose_in_place_with_conj (F : SelfAdjointEigen)
    (conj : Conj) (rhs : Mat) : Mat :=
  let n := F.nrows
  let k := rhs.ncols
  let tmp := matmulConj (GMat.transpose F.U) conj rhs .no
  let tmp := scaleRowsRecip tmp n k F.S
  matmulConj F.U (conj.compose .yes) tmp .no

/-!
Precondition layer of the public solve / transpose-solve / least-squares /
inverse operations. Each `..._checked` definition embeds the `assert!` at
the top of the corresponding source operation (a failed assert panics,
modelled as `none`), and on success performs the operation's body — the
external kernel calls enter as function parameters.

The source wrappers for `Cholesky`, `Ldlt` and `Lblt` contain no assert of
their own; per spec §4.1/§7 the shape precondition of those solves is
enforced by the kernel solver, which is external and therefore modelled
from the spec below (`lltSolveShapeOk` and friends).
-/

/-- Modelled from the spec: the shape precondition the Cholesky-family
kernel solvers enforce on entry (spec §4.1: the solve capability "Requires
`A` square and `rows(X) = n`"; §7: dimension violations fail loudly). -/
def selfAdjointSolveShapeOk (L rhs : Mat) : Prop :=
  L.nrows = L.ncols ∧ L.nrows = rhs.nrows

instance (L rhs : Mat) : Decidable (selfAdjointSolveShapeOk L rhs) := by
  unfold selfAdjointSolveShapeOk; infer_instance

/-- `Cholesky::solve_in_place_with_conj` with the kernel's shape check
(Modelled from the spec: the wrapper at `solvers.rs:910` has no assert of
its own and forwards to the external kernel solver). -/
def Cholesky.solve_in_place_checked (k : Mat → Conj → Mat → Mat) (F : Cholesky)
    (conj : Conj) (rhs : Mat) : Option Mat :=
  if selfAdjointSolveShapeOk F.L rhs then some (F.solve_in_place_with_conj k conj rhs)
  else none

/-- `Cholesky::solve_transpose_in_place_with_conj` with the kernel's shape
check (Modelled from the spec, as above; `solvers.rs:933`). -/
def Cholesky.solve_transpose_in_place_checked (k : Mat → Conj → Mat → Mat)
    (F : Cholesky) (conj : Conj) (rhs : Mat) : Option Mat :=
  if selfAdjointSolveShapeOk F.L rhs
  then some (F.solve_transpose_in_place_with_conj k conj rhs)
  else none

/-- `Ldlt::solve_in_place_with_conj` with the kernel's shape check
(Modelled from the spec; `solvers.rs:1008`). -/
def Ldlt.solve_in_place_checked (k : Mat → Diag → Conj → Mat → Mat) (F : Ldlt)
    (conj : Conj) (rhs : Mat) : Option Mat :=
  if selfAdjointSolveShapeOk F.L rhs then some (F.solve_in_place_with_conj k conj rhs)
  else none

/-- `Ldlt::solve_transpose_in_place_with_conj` with the kernel's shape
check (Modelled from the spec; `solvers.rs:1032`). -/
def Ldlt.solve_transpose_in_place_checked (k : Mat → Diag → Conj → Mat → Mat)
    (F : Ldlt) (conj : Conj) (rhs : Mat) : Option Mat :=
  if selfAdjointSolveShapeOk F.L rhs
  then some (F.solve_transpose_in_place_with_conj k conj rhs)
  else none

/-- `Lblt::solve_in_place_with_conj` with the kernel's shape check
(Modelled from the spec; `solvers.rs:1102`). -/
def Lblt.solve_in_place_checked (k : Mat → Diag → Diag → Conj → Perm → Mat → Mat)
    (F : Lblt) (conj : Conj) (rhs : Mat) : Option Mat :=
  if selfAdjointSolveShapeOk F.L rhs then some (F.solve_in_place_with_conj k conj rhs)
  else none

/-- `Lblt::solve_transpose_in_place_with_conj` with the kernel's shape
check (Modelled from the spec; `solvers.rs:1128`). -/
def Lblt.solve_transpose_in_place_checked (k : Mat → Diag → Diag → Conj → Perm → Mat → Mat)
    (F : Lblt) (conj : Conj) (rhs : Mat) : Option Mat :=
  if selfAdjointSolveShapeOk F.L rhs
  then some (F.solve_transpose_in_place_with_conj k conj rhs)
  else none

/-- `PartialPivLu::solve_in_place_with_conj` (`solvers.rs:1211`): asserts
`nrows == ncols` and `nrows == rhs.nrows()`, then delegates to the external
LU solver `k`. -/
def PartialPivLu.solve_in_place_checked (k : Mat → Mat → Perm → Conj → Mat → Mat)
    (F : PartialPivLu) (conj : Conj) (rhs : Mat) : Option Mat :=
  if F.nrows = F.ncols ∧ F.nrows = rhs.nrows then some (k F.L F.U F.P conj rhs)
  else none

/-- `PartialPivLu::solve_transpose_in_place_with_conj` (`solvers.rs:1240`):
asserts `nrows == ncols` and `ncols == rhs.nrows()`. -/
def PartialPivLu.solve_transpose_in_place_checked (k : Mat → Mat → Perm → Conj → Mat → Mat)
    (F : PartialPivLu) (conj : Conj) (rhs : Mat) : Option Mat :=
  if F.nrows = F.ncols ∧ F.ncols = rhs.nrows then some (k F.L F.U F.P conj rhs)
  else none

/-- `PartialPivLu::inverse` (`solvers.rs:1295`): asserts `nrows == ncols`,
then delegates to the external LU inverse kernel. -/
def PartialPivLu.inverse_checked (k : Mat → Mat → Perm → Mat)
    (F : PartialPivLu) : Option Mat :=
  if F.nrows = F.ncols then some (k F.L F.U F.P) else none

/-- `FullPivLu::solve_in_place_with_conj` (`solvers.rs:1321`). -/
def FullPivLu.solve_in_place_checked (k : Mat → Mat → Perm → Perm → Conj → Mat → Mat)
    (F : FullPivLu) (conj : Conj) (rhs : Mat) : Option Mat :=
  if F.nrows = F.ncols ∧ F.nrows = rhs.nrows then some (k F.L F.U F.P F.Q conj rhs)
  else none

/-- `FullPivLu::solve_transpose_in_place_with_conj` (`solvers.rs:1351`). -/
def FullPivLu.solve_transpose_in_place_checked (k : Mat → Mat → Perm → Perm → Conj → Mat → Mat)
    (F : FullPivLu) (conj : Conj) (rhs : Mat) : Option Mat :=
  if F.nrows = F.ncols ∧ F.ncols = rhs.nrows then some (k F.L F.U F.P F.Q conj rhs)
  else none

/-- `FullPivLu::inverse` (`solvers.rs:1406`). -/
def FullPivLu.inverse_checked (k : Mat → Mat → Perm → Perm → Mat)
    (F : FullPivLu) : Option Mat :=
  if F.nrows = F.ncols then some (k F.L F.U F.P F.Q) else none

/-- `Qr::solve_in_place_with_conj` (`solvers.rs:1433`): asserts
`nrows == ncols` and `nrows == rhs.nrows()`, then delegates to the external
QR solver. -/
def Qr.solve_in_place_checked (k : Mat → Mat → Mat → Conj → Mat → Mat)
    (F : Qr) (conj : Conj) (rhs : Mat) : Option Mat :=
  if F.nrows = F.ncols ∧ F.nrows = rhs.nrows
  then some (k F.Q_basis F.Q_coeff F.R conj rhs)
  else none

/-- `Qr::solve_transpose_in_place_with_conj` (`solvers.rs:1460`). -/
def Qr.solve_transpose_in_place_checked (k : Mat → Mat → Mat → Conj → Mat → Mat)
    (F : Qr) (conj : Conj) (rhs : Mat) : Option Mat :=
  if F.nrows = F.ncols ∧ F.ncols = rhs.nrows
  then some (k F.Q_basis F.Q_coeff F.R conj rhs)
  else none

/-- `Qr::solve_lstsq_in_place_with_conj` (`solvers.rs:1491`): asserts
`nrows == rhs.nrows()` and `nrows >= ncols`. -/
def Qr.solve_lstsq_in_place_checked (k : Mat → Mat → Mat → Conj → Mat → Mat)
    (F : Qr) (conj : Conj) (rhs : Mat) : Option Mat :=
  if F.nrows = rhs.nrows ∧ F.nrows ≥ F.ncols
  then some (k F.Q_basis F.Q_coeff F.R conj rhs)
  else none

/-- `Qr::inverse` (`solvers.rs:1547`): asserts `nrows == ncols`. -/
def Qr.inverse_checked (k : Mat → Mat → Mat → Mat) (F : Qr) : Option Mat :=
  if F.nrows = F.ncols then some (k F.Q_basis F.Q_coeff F.R) else none

/-- `ColPivQr::solve_in_place_with_conj` (`solvers.rs:1573`). -/
def ColPivQr.solve_in_place_checked (k : Mat → Mat → Mat → Perm → Conj → Mat → Mat)
    (F : ColPivQr) (conj : Conj) (rhs : Mat) : Option Mat :=
  if F.nrows = F.ncols ∧ F.nrows = rhs.nrows
  then some (k F.Q_basis F.Q_coeff F.R F.P conj rhs)
  else none

/-- `ColPivQr::solve_transpose_in_place_with_conj` (`solvers.rs:1603`). -/
def ColPivQr.solve_transpose_in_place_checked (k : Mat → Mat → Mat → Perm → Conj → Mat → Mat)
    (F : ColPivQr) (conj : Conj) (rhs : Mat) : Option Mat :=
  if F.nrows = F.ncols ∧ F.ncols = rhs.nrows
  then some (k F.Q_basis F.Q_coeff F.R F.P conj rhs)
  else none

/-- `ColPivQr::solve_lstsq_in_place_with_conj` (`solvers.rs:1635`). -/
def ColPivQr.solve_lstsq_in_place_checked (k : Mat → Mat → Mat → Perm → Conj → Mat → Mat)
    (F : ColPivQr) (conj : Conj) (rhs : Mat) : Option Mat :=
  if F.nrows = rhs.nrows ∧ F.nrows ≥ F.ncols
  then some (k F.Q_basis F.Q_coeff F.R F.P conj rhs)
  else none

/-- `ColPivQr::inverse` (`solvers.rs:1693`). -/
def ColPivQr.inverse_checked (k : Mat → Mat → Mat → Perm → Mat) (F : ColPivQr) :
    Option Mat :=
  if F.nrows = F.ncols then some (k F.Q_basis F.Q_coeff F.R F.P) else none

/-- `Svd::solve_in_place_with_conj` with its entry assert
(`solvers.rs:1721`: `nrows == ncols` and `nrows == rhs.nrows()`). -/
def Svd.solve_in_place_checked (F : Svd) (conj : Conj) (rhs : Mat) : Option Mat :=
  if F.nrows = F.ncols ∧ F.nrows = rhs.nrows
  then some (F.solve_in_place_with_conj conj rhs)
  else none

/-- `Svd::solve_transpose_in_place_with_conj` with its entry assert
(`solvers.rs:1765`: `nrows == ncols` and `ncols == rhs.nrows()`). -/
def Svd.solve_transpose_in_place_checked (F : Svd) (conj : Conj) (rhs : Mat) :
    Option Mat :=
  if F.nrows = F.ncols ∧ F.ncols = rhs.nrows
  then some (F.solve_transpose_in_place_with_conj conj rhs)
  else none

/-- `Svd::solve_lstsq_in_place_with_conj` with its entry assert
(`solvers.rs:1811`: `nrows == rhs.nrows()` and `nrows >= ncols`). -/
def Svd.solve_lstsq_in_place_checked (F : Svd) (conj : Conj) (rhs : Mat) : Option Mat :=
  if F.nrows = rhs.nrows ∧ F.nrows ≥ F.ncols
  then some (F.solve_lstsq_in_place_with_conj conj rhs)
  else none

/-- `Svd::inverse` with its entry assert (`solvers.rs:1898`:
`nrows == ncols`); the body scales the columns of `V` by
`recip(real(S[j]))` and multiplies by `U.adjoint()`. -/
def Svd.inverse_checked (F : Svd) : Option Mat :=
  if F.nrows = F.ncols then
    let n := F.nrows
    some (matmul (scaleColsReal F.V n n (fun j => (CQ.real (F.S.entry j))⁻¹))
      (GMat.adjoint F.U))
  else none

/-- `SelfAdjointEigen::solve_in_place_with_conj` with its entry assert
(`solvers.rs:1934`). -/
def SelfAdjointEigen.solve_in_place_checked (F : SelfAdjointEigen) (conj : Conj)
    (rhs : Mat) : Option Mat :=
  if F.nrows = F.ncols ∧ F.nrows = rhs.nrows
  then some (F.solve_in_place_with_conj conj rhs)
  else none

/-- `SelfAdjointEigen::solve_transpose_in_place_with_conj` with its entry
assert (`solvers.rs:1978`). -/
def SelfAdjointEigen.solve_transpose_in_place_checked (F : SelfAdjointEigen)
    (conj : Conj) (rhs : Mat) : Option Mat :=
  if F.nrows = F.ncols ∧ F.ncols = rhs.nrows
  then some (F.solve_transpose_in_place_with_conj conj rhs)
  else none

/-- `SelfAdjointEigen::inverse` with its entry assert (`solvers.rs:2059`:
`nrows == ncols`). -/
def SelfAdjointEigen.inverse_checked (F : SelfAdjointEigen) : Option Mat :=
  if F.nrows = F.ncols then some F.inverse else none

/-- Forward application of a permutation's index array. -/
def Perm.fwd (p : Perm) (j : Nat) : Nat := p.forward.getD j 0

/-- Modelled from the spec: `permute_cols_in_place(X, p)` (spec §6.1
"applies permutation"): column `j` of the result is column `p.forward[j]`
of the input, so that column `j` of the input lands at column
`p.inverse[j]` of the result. -/
def permuteColsInPlace (X : Mat) (p : Perm) : Mat :=
  ⟨X.nrows, X.ncols, fun i j => X.entry i (p.fwd j)⟩

/-- The copy `out[..size, ..n].copy_from_triangular_upper(R)` of
`qr/col_pivoting/reconstruct.rs:44`: writes `R[(i, j)]` at the in-bounds
positions of the sub-view with `i ≤ j`, leaving the rest of `out`. -/
def copyTriangularUpperIntoLeadingRows (out R : Mat) (size n : Nat) : Mat :=
  ⟨out.nrows, out.ncols, fun i j =>
    if i < size ∧ j < n ∧ i ≤ j then R.entry i j else out.entry i j⟩

/-- `reconstruct` of `src/faer/src/linalg/qr/col_pivoting/reconstruct.rs:19`
(after its shape asserts): zero `out`, write the upper triangle of `R` into
its leading `min(m, n)` rows, apply the implicit block-Householder `Q` on
the left, and permute the columns by the inverse of the column permutation.
The Householder application is external (spec §6.1
`apply_block_householder_sequence_on_the_left_in_place`, "implicit Q·X"):
it is modelled as left multiplication by the explicit matrix of the
implicit product of reflectors, which enters as the parameter `Qof`
applied to `(Q_basis, Q_coeff)`. -/
def colPivQrReconstructKernel (Qof : Mat → Mat → Mat)
    (Q_basis Q_coeff R : Mat) (col_perm : Perm) : Mat :=
  let m := Q_basis.nrows
  let n := R.ncols
  let size := min m n
  let out := GMat.zeros m n
  let out := copyTriangularUpperIntoLeadingRows out R size n
  let out := matmul (Qof Q_basis Q_coeff) out
  permuteColsInPlace out col_perm.into_inverse

/-- `ColPivQr::reconstruct` (`solvers.rs:1667`): delegates to the kernel
reconstruct with the stored fields. -/
def ColPivQr.reconstruct (Qof : Mat → Mat → Mat) (F : ColPivQr) : Mat :=
  colPivQrReconstructKernel Qof F.Q_basis F.Q_coeff F.R F.P

/-- One pass of the column-unpacking loop of `Eigen::new_from_real`
(`solvers.rs:734`): walks `j` while `j < n`; a zero `S_im[j]` emits one
real column and advances by one; otherwise the source writes `S[j]`,
`S[j+1]`, then for each row writes `U[(i, j)]` twice — first with
`+U_real[(i, j+1)]` and then with `-U_real[(i, j+1)]` as imaginary part —
and advances by two. Both writes are embedded in source order. The fuel is
the remaining number of loop iterations, bounded by `n - j`. -/
def eigenUnpackGo (n : Nat) (U_real : RMat) (S_re S_im : Nat → ℚ) :
    Nat → Nat → Mat × Diag → Mat × Diag
  | 0, _, st => st
  | fuel + 1, j, (U, S) =>
    if j < n then
      if S_im j = 0 then
        let S := S.set j ⟨S_re j, 0⟩
        let U := (List.range n).foldl
          (fun U i => U.setEntry i j ⟨U_real.entry i j, 0⟩) U
        eigenUnpackGo n U_real S_re S_im fuel (j + 1) (U, S)
      else
        let S := S.set j ⟨S_re j, S_im j⟩
        let S := S.set (j + 1) ⟨S_re j, -(S_im j)⟩
        let U := (List.range n).foldl
          (fun U i =>
            let U := U.setEntry i j ⟨U_real.entry i j, U_real.entry i (j + 1)⟩
            U.setEntry i j ⟨U_real.entry i j, -(U_real.entry i (j + 1))⟩) U
        eigenUnpackGo n U_real S_re S_im fuel (j + 2) (U, S)
    else (U, S)

/-- The unpacking stage of `Eigen::new_from_real` (`solvers.rs:700`): the
external real EVD driver (spec §6.1 `evd_real`) has produced `U_real`,
`S_re`, `S_im`; the constructor builds the complex `U` and `S` from zeroed
storage by the `while j < n` loop. -/
def eigenUnpack (n : Nat) (U_real : RMat) (S_re S_im : Nat → ℚ) : Mat × Diag :=
  eigenUnpackGo n U_real S_re S_im n 0 (GMat.zeros n n, Diag.zeros n)

/-!
Concrete inputs used by the witness and counterexample theorems.
-/

/-- A concrete real 2×2 eigenvector storage `[[1, 2], [3, 4]]` as returned
by the real EVD driver for one conjugate pair. -/
def UrealPair : RMat :=
  ⟨2, 2, fun i j =>
    if i = 0 then (if j = 0 then 1 else 2) else (if j = 0 then 3 else 4)⟩

/-- Real parts of a conjugate eigenvalue pair: both `5`. -/
def SrePair : Nat → ℚ := fun _ => 5

/-- Imaginary parts of a conjugate eigenvalue pair: `6` and `-6`. -/
def SimPair : Nat → ℚ := fun j => if j = 0 then 6 else -6

/-- A concrete tall 3×2 matrix with distinct entries. -/
def tall32 : Mat := ⟨3, 2, fun i j => ⟨(i : ℚ) + 10 * (j : ℚ), 1⟩⟩

/-- A concrete wide 2×3 matrix with distinct entries. -/
def wide23 : Mat := ⟨2, 3, fun i j => ⟨(i : ℚ) + 10 * (j : ℚ), 2⟩⟩

/-- A concrete 2×2 self-adjoint-eigen object with complex entries. -/
def saF0 : SelfAdjointEigen :=
  ⟨⟨2, 2, fun a b => ⟨(a : ℚ) + 1, (b : ℚ) + 2⟩⟩, ⟨2, fun k => ⟨(k : ℚ) + 1, (k : ℚ)⟩⟩⟩

/-- A concrete square 2×2 SVD object with complex entries. -/
def svdF0 : Svd :=
  ⟨⟨2, 2, fun i j => ⟨(i : ℚ), (j : ℚ) + 1⟩⟩,
   ⟨2, 2, fun i j => ⟨(j : ℚ), (i : ℚ) + 2⟩⟩,
   ⟨2, fun k => ⟨(k : ℚ) + 1, 0⟩⟩⟩

/-- `svdF0.U` with different entries in the columns past `min(m, n)`. -/
def svdU2 : Mat :=
  ⟨2, 2, fun i j => if j < 2 then ⟨(i : ℚ), (j : ℚ) + 1⟩ else ⟨99, 0⟩⟩

/-- `svdF0.V` with different entries in the columns past `min(m, n)`. -/
def svdV2 : Mat :=
  ⟨2, 2, fun i j => if j < 2 then ⟨(j : ℚ), (i : ℚ) + 2⟩ else ⟨99, 0⟩⟩

/-- A concrete 2×1 right-hand side. -/
def rhs20 : Mat := ⟨2, 1, fun i j => ⟨(i : ℚ) + (j : ℚ), 1⟩⟩

/-- A concrete 3×1 right-hand side. -/
def rhs30 : Mat := ⟨3, 1, fun i j => ⟨(i : ℚ) + (j : ℚ), 0⟩⟩

/-- A concrete 2×2 upper-triangular `R` factor. -/
def qrR0 : Mat := ⟨2, 2, fun i j => if i ≤ j then ⟨(i : ℚ) + (j : ℚ) + 1, 0⟩ else 0⟩

/-- A concrete 1×1 column-pivoted QR object with the identity permutation
and `R = [[2]]`. -/
def qrF1 : ColPivQr :=
  ⟨⟨1, 1, fun _ _ => ⟨4, 0⟩⟩, ⟨1, 1, fun _ _ => ⟨1, 0⟩⟩, ⟨1, 1, fun _ _ => ⟨2, 0⟩⟩,
    ⟨[0], [0]⟩⟩

/-- A Householder-application model whose implicit `Q` is the 1×1
identity. -/
def qrQofId1 : Mat → Mat → Mat := fun _ _ => ⟨1, 1, fun _ _ => 1⟩

/-- The matrix `qrF1` reconstructs: `[[2]]`. -/
def qrA1 : Mat := ⟨1, 1, fun _ _ => ⟨2, 0⟩⟩

/-- A trivial LLT kernel that succeeds returning its input. -/
def kLltOk : Mat → Except LltError Mat := fun M => .ok M

/-- A trivial LDLT kernel that succeeds returning its input. -/
def kLdltOk : Mat → Except LdltError Mat := fun M => .ok M

/-- A trivial Bunch–Kaufman kernel returning its input and identity
permutation content. -/
def kBk0 : Mat → BkOut := fun M => ⟨M, ⟨M.nrows, fun _ => 0⟩, id, id⟩

/-- A trivial QR solve kernel returning the right-hand side. -/
def kQrSolve : Mat → Mat → Mat → Conj → Mat → Mat := fun _ _ _ _ rhs => rhs

/-- A concrete tall 3×2 (unpivoted) QR object: `nrows = 3`, `ncols = 2`. -/
def qrTall0 : Qr := ⟨tall32, ⟨1, 2, fun _ _ => ⟨1, 0⟩⟩, qrR0⟩

/-- A concrete square 2×2 matrix whose strict upper triangle differs from
`lowA0` while the lower triangle (diagonal included) agrees. -/
def lowA0 : Mat := ⟨2, 2, fun i j => if j ≤ i then ⟨(i : ℚ) + (j : ℚ) + 1, 0⟩ else ⟨5, 5⟩⟩

/-- `lowA0` with a different strict upper triangle. -/
def lowB0 : Mat := ⟨2, 2, fun i j => if j ≤ i then ⟨(i : ℚ) + (j : ℚ) + 1, 0⟩ else ⟨7, -7⟩⟩

/-- A concrete square 2×2 matrix whose strict lower triangle differs from
`upA0` while the upper triangle (diagonal included) agrees. -/
def upA0 : Mat := ⟨2, 2, fun i j => if i ≤ j then ⟨(i : ℚ) + (j : ℚ) + 1, 0⟩ else ⟨5, 5⟩⟩

/-- `upA0` with a different strict lower triangle. -/
def upB0 : Mat := ⟨2, 2, fun i j => if i ≤ j then ⟨(i : ℚ) + (j : ℚ) + 1, 0⟩ else ⟨7, -7⟩⟩

end Faer

namespace Faer

/-- C9: `Perm::new_unchecked` asserts only that the two arrays have equal
length and that this length is at most `I::Signed::MAX`, panicking
otherwise; it performs no validity check beyond that, and on success
`into_inverse` swaps the two arrays, so applying it twice returns the
original permutation. -/
theorem C9_perm_new_unchecked (f i : List Nat) :
    (f.length = i.length ∧ f.length ≤ Perm.signedMax →
      Perm.new_unchecked f i = some ⟨f, i⟩ ∧
      Perm.into_inverse ⟨f, i⟩ = ⟨i, f⟩ ∧
      Perm.into_inverse (Perm.into_inverse ⟨f, i⟩) = ⟨f, i⟩) ∧
    (¬(f.length = i.length ∧ f.length ≤ Perm.signedMax) →
      Perm.new_unchecked f i = none) := by
  constructor
  · intro h
    refine ⟨?_, rfl, rfl⟩
    unfold Perm.new_unchecked
    rw [if_pos h]
  · intro h
    unfold Perm.new_unchecked
    rw [if_neg h]

/-- C9 witness: the arrays `[0, 0]` and `[1, 1]` are not mutually inverse
permutations (not even permutations), yet `new_unchecked` accepts them and
`into_inverse` merely swaps them. -/
theorem C9_perm_new_unchecked_witness :
    Perm.new_unchecked [0, 0] [1, 1] = some ⟨[0, 0], [1, 1]⟩ ∧
    Perm.into_inverse ⟨[0, 0], [1, 1]⟩ = ⟨[1, 1], [0, 0]⟩ ∧
    Perm.into_inverse (Perm.into_inverse ⟨[0, 0], [1, 1]⟩) = ⟨[0, 0], [1, 1]⟩ :=
  (C9_perm_new_unchecked [0, 0] [1, 1]).1 (by constructor <;> decide)

/-- C3: `split_LU` on an in-place factored `m×n` matrix returns `(L, U)`
with, for `m ≥ n`: `L` the `m×n` working matrix with strict upper zeroed
and unit diagonal and `U` the `n×n` upper triangle of its leading block;
for `m < n`: `U` the `m×n` working matrix with strict lower zeroed and `L`
the `m×m` strict lower triangle of its leading block with unit diagonal
(and zero above); in both cases the strict lower part of `L` and the upper
part of `U` equal the corresponding input entries. -/
theorem C3_split_LU (LU : Mat) (i j : Nat) :
    (LU.nrows ≥ LU.ncols →
      ((split_LU LU).1.nrows = LU.nrows ∧ (split_LU LU).1.ncols = LU.ncols ∧
        (split_LU LU).2.nrows = LU.ncols ∧ (split_LU LU).2.ncols = LU.ncols) ∧
      (i < LU.nrows → j < LU.ncols →
        (split_LU LU).1.entry i j =
          if i < j then 0 else if i = j then 1 else LU.entry i j) ∧
      (i < LU.ncols → j < LU.ncols →
        (split_LU LU).2.entry i j = if i ≤ j then LU.entry i j else 0)) ∧
    (LU.nrows < LU.ncols →
      ((split_LU LU).2.nrows = LU.nrows ∧ (split_LU LU).2.ncols = LU.ncols ∧
        (split_LU LU).1.nrows = LU.nrows ∧ (split_LU LU).1.ncols = LU.nrows) ∧
      (i < LU.nrows → j < LU.ncols →
        (split_LU LU).2.entry i j = if i ≤ j then LU.entry i j else 0) ∧
      (i < LU.nrows → j < LU.nrows →
        (split_LU LU).1.entry i j =
          if j < i then LU.entry i j else if i = j then 1 else 0)) := by
  constructor
  · intro hmn
    have hcond : LU.ncols ≤ LU.nrows := hmn
    refine ⟨?_, ?_, ?_⟩
    · simp [split_LU, hcond, GMat.zeros, copyFromTriangularUpper, zeroStrictUpper,
        fillDiagonal]
    · intro hi hj
      simp only [split_LU, ge_iff_le, hcond, if_true, copyFromTriangularUpper,
        zeroStrictUpper, fillDiagonal, GMat.zeros]
      split_ifs <;> first | rfl | omega
    · intro hi hj
      simp only [split_LU, ge_iff_le, hcond, if_true, copyFromTriangularUpper,
        zeroStrictUpper, fillDiagonal, GMat.zeros]
      split_ifs <;> first | rfl | omega
  · intro hmn
    have hcond : ¬(LU.ncols ≤ LU.nrows) := by omega
    refine ⟨?_, ?_, ?_⟩
    · simp [split_LU, hcond, GMat.zeros, copyFromStrictTriangularLower,
        zeroStrictLower, fillDiagonal]
      omega
    · intro hi hj
      simp only [split_LU, ge_iff_le, hcond, if_false, copyFromStrictTriangularLower,
        zeroStrictLower, fillDiagonal, GMat.zeros]
      split_ifs <;> first | rfl | omega
    · intro hi hj
      simp only [split_LU, ge_iff_le, hcond, if_false, copyFromStrictTriangularLower,
        zeroStrictLower, fillDiagonal, GMat.zeros]
      split_ifs <;> first | rfl | omega

/-- C3 witness: concrete entries of `split_LU` on a tall 3×2 and a wide
2×3 matrix, for the strict-lower, diagonal and upper positions. -/
theorem C3_split_LU_witness :
    ((split_LU tall32).1.entry 2 1 =
        if 2 < 1 then 0 else if 2 = 1 then 1 else tall32.entry 2 1) ∧
    ((split_LU tall32).2.entry 0 1 = if 0 ≤ 1 then tall32.entry 0 1 else 0) ∧
    ((split_LU wide23).1.entry 1 0 =
        if 0 < 1 then wide23.entry 1 0 else if 1 = 0 then 1 else 0) ∧
    ((split_LU wide23).2.entry 1 2 = if 1 ≤ 2 then wide23.entry 1 2 else 0) :=
  ⟨((C3_split_LU tall32 2 1).1 (by decide)).2.1 (by decide) (by decide),
   ((C3_split_LU tall32 0 1).1 (by decide)).2.2 (by decide) (by decide),
   ((C3_split_LU wide23 1 0).2 (by decide)).2.2 (by decide) (by decide),
   ((C3_split_LU wide23 1 2).2 (by decide)).2.1 (by decide) (by decide)⟩

/-- C1: evaluation of the eigenvector-unpacking loop of
`Eigen::new_from_real` on a driver output with one complex-conjugate pair
(`S_im[0] = 6 ≠ 0`, `U_real = [[1, 2], [3, 4]]`). The eigenvalues are
stored as claimed (`5 + 6i` and its conjugate), but both writes of the
loop target column 0 — the column receives `U_real[:,0] - i·U_real[:,1]`
instead of `U_real[:,0] + i·U_real[:,1]` — and column 1 is never written,
remaining zero instead of holding the conjugate eigenvector. -/
theorem C1_eigen_unpack_bug :
    (eigenUnpack 2 UrealPair SrePair SimPair).2.entry 0 = ⟨5, 6⟩ ∧
    (eigenUnpack 2 UrealPair SrePair SimPair).2.entry 1 = ⟨5, -6⟩ ∧
    (eigenUnpack 2 UrealPair SrePair SimPair).1.entry 0 0 = ⟨1, -2⟩ ∧
    (eigenUnpack 2 UrealPair SrePair SimPair).1.entry 1 0 = ⟨3, -4⟩ ∧
    (eigenUnpack 2 UrealPair SrePair SimPair).1.entry 0 1 = 0 ∧
    (eigenUnpack 2 UrealPair SrePair SimPair).1.entry 1 1 = 0 := by
  decide

/-- Matrices with equal shapes and equal entry functions are equal. -/
theorem GMat.ext' {α : Type} (A B : GMat α) (h1 : A.nrows = B.nrows)
    (h2 : A.ncols = B.ncols) (h3 : ∀ i j, A.entry i j = B.entry i j) : A = B := by
  cases A
  cases B
  simp only [GMat.mk.injEq]
  exact ⟨h1, h2, funext fun i => funext fun j => h3 i j⟩

@[simp] theorem CQ.zero_re : (0 : CQ).re = 0 := rfl

@[simp] theorem CQ.zero_im : (0 : CQ).im = 0 := rfl

theorem CQ.conjHom_apply (x : CQ) : CQ.conjHom x = CQ.conj x := rfl

theorem CQ.imHom_apply (x : CQ) : CQ.imHom x = x.im := rfl

theorem CQ.eq_fromReal_of_im_zero (x : CQ) (h : x.im = 0) :
    x = CQ.fromReal (CQ.real x) := by
  cases x with
  | mk a b =>
    simp only [CQ.fromReal, CQ.real, CQ.mk.injEq, true_and]
    exact h

/-- The entry sums produced by multiplying real-scaled columns of `U` by
the adjoint of (columns of) `U` are conjugate-symmetric in the two row
indices. -/
theorem selfAdjointSum_conj (U : Mat) (m size : Nat) (s : Nat → ℚ) (i j : Nat)
    (hi : i < m) (hj : j < m) :
    (∑ k ∈ Finset.range size,
      CQ.mul (if i < m ∧ k < size then CQ.mulReal (U.entry i k) (s k) else 0)
        (CQ.conj (U.entry j k))) =
    CQ.conj (∑ k ∈ Finset.range size,
      CQ.mul (if j < m ∧ k < size then CQ.mulReal (U.entry j k) (s k) else 0)
        (CQ.conj (U.entry i k))) := by
  rw [← CQ.conjHom_apply, map_sum]
  apply Finset.sum_congr rfl
  intro k hk
  have hk' : k < size := Finset.mem_range.mp hk
  rw [CQ.conjHom_apply, if_pos ⟨hi, hk'⟩, if_pos ⟨hj, hk'⟩]
  rcases U.entry i k with ⟨a, b⟩
  rcases U.entry j k with ⟨c, d⟩
  simp only [CQ.mul, CQ.mulReal, CQ.conj, CQ.mk.injEq]
  constructor <;> ring

/-- The diagonal entries of such products have zero imaginary part. -/
theorem selfAdjointSum_diag_im (U : Mat) (m size : Nat) (s : Nat → ℚ) (j : Nat) :
    (∑ k ∈ Finset.range size,
      CQ.mul (if j < m ∧ k < size then CQ.mulReal (U.entry j k) (s k) else 0)
        (CQ.conj (U.entry j k))).im = 0 := by
  rw [← CQ.imHom_apply, map_sum]
  apply Finset.sum_eq_zero
  intro k _
  rw [CQ.imHom_apply]
  by_cases h : j < m ∧ k < size
  · rw [if_pos h]
    rcases U.entry j k with ⟨a, b⟩
    simp only [CQ.mul, CQ.mulReal, CQ.conj]
    ring
  · rw [if_neg h]
    rcases U.entry j k with ⟨a, b⟩
    simp [CQ.mul, CQ.conj]

/-- The entries of `SelfAdjointEigen::reconstruct` as an explicit sum. -/
theorem selfAdjointEigen_reconstruct_entry (F : SelfAdjointEigen) (i j : Nat) :
    F.reconstruct.entry i j =
      ∑ k ∈ Finset.range (min F.nrows F.ncols),
        CQ.mul (if i < F.nrows ∧ k < min F.nrows F.ncols
            then CQ.mulReal (F.U.entry i k) (CQ.real (F.S.entry k)) else 0)
          (CQ.conj (F.U.entry j k)) := rfl

/-- The entries of `SelfAdjointEigen::inverse` as an explicit sum. -/
theorem selfAdjointEigen_inverse_entry (F : SelfAdjointEigen) (i j : Nat) :
    F.inverse.entry i j =
      ∑ k ∈ Finset.range F.nrows,
        CQ.mul (if i < F.nrows ∧ k < F.nrows
            then CQ.mulReal (F.U.entry i k) (CQ.real (F.S.entry k))⁻¹ else 0)
          (CQ.conj (F.U.entry j k)) := rfl

/-- C2: the matrices returned by `SelfAdjointEigen::reconstruct` and
`SelfAdjointEigen::inverse` are exactly self-adjoint in exact arithmetic:
every diagonal entry has zero imaginary part and equals the real part of
itself, and every entry equals the conjugate of its mirror entry; forcing
self-adjointness with `make_self_adjoint` (as Cholesky, Ldlt and Lblt do)
leaves both outputs pointwise unchanged. -/
theorem C2_self_adjoint_eigen_outputs (F : SelfAdjointEigen) (i j : Nat)
    (hi : i < F.nrows) (hj : j < F.nrows) :
    (F.reconstruct.nrows = F.nrows ∧ F.reconstruct.ncols = F.nrows ∧
      (F.reconstruct.entry j j).im = 0 ∧
      F.reconstruct.entry j j = CQ.fromReal (CQ.real (F.reconstruct.entry j j)) ∧
      F.reconstruct.entry i j = CQ.conj (F.reconstruct.entry j i) ∧
      (make_self_adjoint F.reconstruct).entry i j = F.reconstruct.entry i j) ∧
    (F.inverse.nrows = F.nrows ∧ F.inverse.ncols = F.nrows ∧
      (F.inverse.entry j j).im = 0 ∧
      F.inverse.entry j j = CQ.fromReal (CQ.real (F.inverse.entry j j)) ∧
      F.inverse.entry i j = CQ.conj (F.inverse.entry j i) ∧
      (make_self_adjoint F.inverse).entry i j = F.inverse.entry i j) := by
  have hrec_im : (F.reconstruct.entry j j).im = 0 := by
    rw [selfAdjointEigen_reconstruct_entry]
    exact selfAdjointSum_diag_im F.U F.nrows (min F.nrows F.ncols) _ j
  have hrec_conj : F.reconstruct.entry i j = CQ.conj (F.reconstruct.entry j i) := by
    rw [selfAdjointEigen_reconstruct_entry, selfAdjointEigen_reconstruct_entry]
    exact selfAdjointSum_conj F.U F.nrows (min F.nrows F.ncols) _ i j hi hj
  have hrec_conj' : ∀ a b, a < F.nrows → b < F.nrows →
      F.reconstruct.entry a b = CQ.conj (F.reconstruct.entry b a) := by
    intro a b ha hb
    rw [selfAdjointEigen_reconstruct_entry, selfAdjointEigen_reconstruct_entry]
    exact selfAdjointSum_conj F.U F.nrows (min F.nrows F.ncols) _ a b ha hb
  have hrec_im' : ∀ b, (F.reconstruct.entry b b).im = 0 := by
    intro b
    rw [selfAdjointEigen_reconstruct_entry]
    exact selfAdjointSum_diag_im F.U F.nrows (min F.nrows F.ncols) _ b
  have hinv_im : ∀ b, (F.inverse.entry b b).im = 0 := by
    intro b
    rw [selfAdjointEigen_inverse_entry]
    exact selfAdjointSum_diag_im F.U F.nrows F.nrows _ b
  have hinv_conj : ∀ a b, a < F.nrows → b < F.nrows →
      F.inverse.entry a b = CQ.conj (F.inverse.entry b a) := by
    intro a b ha hb
    rw [selfAdjointEigen_inverse_entry, selfAdjointEigen_inverse_entry]
    exact selfAdjointSum_conj F.U F.nrows F.nrows _ a b ha hb
  refine ⟨⟨rfl, rfl, hrec_im, CQ.eq_fromReal_of_im_zero _ hrec_im, hrec_conj, ?_⟩,
    rfl, rfl, hinv_im j, CQ.eq_fromReal_of_im_zero _ (hinv_im j), hinv_conj i j hi hj, ?_⟩
  · show (make_self_adjoint F.reconstruct).entry i j = F.reconstruct.entry i j
    have hjr : j < F.reconstruct.nrows := hj
    simp only [make_self_adjoint]
    by_cases hij : i = j
    · rw [if_pos ⟨hjr, hij⟩]
      subst hij
      exact (CQ.eq_fromReal_of_im_zero _ (hrec_im' i)).symm
    · rw [if_neg (by tauto)]
      by_cases hlt : i < j
      · rw [if_pos ⟨hjr, hlt⟩]
        exact (hrec_conj' i j hi hj).symm
      · rw [if_neg (by tauto)]
  · show (make_self_adjoint F.inverse).entry i j = F.inverse.entry i j
    have hjr : j < F.inverse.nrows := hj
    simp only [make_self_adjoint]
    by_cases hij : i = j
    · rw [if_pos ⟨hjr, hij⟩]
      subst hij
      exact (CQ.eq_fromReal_of_im_zero _ (hinv_im i)).symm
    · rw [if_neg (by tauto)]
      by_cases hlt : i < j
      · rw [if_pos ⟨hjr, hlt⟩]
        exact (hinv_conj i j hi hj).symm
      · rw [if_neg (by tauto)]

/-- C2 witness: the self-adjointness facts at a concrete 2×2 eigen object
with complex entries and entry indices (0, 1). -/
theorem C2_self_adjoint_eigen_outputs_witness :
    (saF0.reconstruct.nrows = saF0.nrows ∧ saF0.reconstruct.ncols = saF0.nrows ∧
      (saF0.reconstruct.entry 1 1).im = 0 ∧
      saF0.reconstruct.entry 1 1 = CQ.fromReal (CQ.real (saF0.reconstruct.entry 1 1)) ∧
      saF0.reconstruct.entry 0 1 = CQ.conj (saF0.reconstruct.entry 1 0) ∧
      (make_self_adjoint saF0.reconstruct).entry 0 1 = saF0.reconstruct.entry 0 1) ∧
    (saF0.inverse.nrows = saF0.nrows ∧ saF0.inverse.ncols = saF0.nrows ∧
      (saF0.inverse.entry 1 1).im = 0 ∧
      saF0.inverse.entry 1 1 = CQ.fromReal (CQ.real (saF0.inverse.entry 1 1)) ∧
      saF0.inverse.entry 0 1 = CQ.conj (saF0.inverse.entry 1 0) ∧
      (make_self_adjoint saF0.inverse).entry 0 1 = saF0.inverse.entry 0 1) :=
  C2_self_adjoint_eigen_outputs saF0 0 1 (by decide) (by decide)

/-- C5: the square SVD solve is exactly the three-step reference routine —
adjoint-side multiply, real reciprocal row scaling, other-side multiply —
instantiated with the pairs `(U, conj ⊕ Yes)` first and `(V, conj)`
second; the transpose solve runs the same steps with the two pairs
exchanged (each matrix keeps its own conjugation composition); the
least-squares solve runs them on the leading `min(m, n)` columns of `U`
and `V`, and its output is unchanged if the entries of `U` and `V` beyond
those columns are replaced arbitrarily. -/
theorem C5_svd_solve_structure (F : Svd) (c : Conj) (rhs : Mat) :
    F.solve_in_place_with_conj c rhs =
      svdSolveSteps (F.U, c.compose .yes) (F.V, c) F.S F.nrows rhs ∧
    F.solve_transpose_in_place_with_conj c rhs =
      svdSolveSteps (F.V, c) (F.U, c.compose .yes) F.S F.nrows rhs ∧
    F.solve_lstsq_in_place_with_conj c rhs =
      svdSolveSteps (F.U.takeCols (min F.nrows F.ncols), c.compose .yes)
        (F.V.takeCols (min F.nrows F.ncols), c) F.S (min F.nrows F.ncols) rhs ∧
    (∀ U2 V2 : Mat, U2.nrows = F.U.nrows → U2.ncols = F.U.ncols →
      V2.nrows = F.V.nrows → V2.ncols = F.V.ncols →
      (∀ a b, b < min F.nrows F.ncols → U2.entry a b = F.U.entry a b) →
      (∀ a b, b < min F.nrows F.ncols → V2.entry a b = F.V.entry a b) →
      Svd.solve_lstsq_in_place_with_conj ⟨U2, V2, F.S⟩ c rhs =
        F.solve_lstsq_in_place_with_conj c rhs) := by
  refine ⟨rfl, rfl, rfl, ?_⟩
  intro U2 V2 h1 h2 h3 h4 hU hV
  have hs : min (U2.nrows) (V2.nrows) = min F.U.nrows F.V.nrows := by rw [h1, h3]
  simp only [Svd.solve_lstsq_in_place_with_conj, Svd.nrows, Svd.ncols]
  simp only [h1, h3, h4]
  apply GMat.ext'
  · simp [matmulConj, GMat.takeCols, h3]
  · rfl
  · intro i j
    simp only [matmulConj, GMat.takeCols, GMat.transpose, scaleRowsRecip]
    simp only [h1, h3, h4]
    apply Finset.sum_congr rfl
    intro k hk
    have hks : k < min F.U.nrows F.V.nrows :=
      lt_of_lt_of_le (Finset.mem_range.mp hk) (min_le_left _ _)
    rw [hV i k hks]
    congr 1
    have hsum :
        (∑ κ ∈ Finset.range U2.nrows,
          CQ.mul ((c.compose .yes).apply (U2.entry κ k)) (Conj.apply .no (rhs.entry κ j))) =
        ∑ κ ∈ Finset.range U2.nrows,
          CQ.mul ((c.compose .yes).apply (F.U.entry κ k)) (Conj.apply .no (rhs.entry κ j)) := by
      apply Finset.sum_congr rfl
      intro κ _
      rw [hU κ k hks]
    rw [h1] at hsum
    rw [hsum]

/-- C5 witness: the trailing-column invariance of the least-squares solve
at a concrete square SVD object, conjugation flag `No`, and a concrete
right-hand side. -/
theorem C5_svd_solve_structure_witness :
    Svd.solve_lstsq_in_place_with_conj ⟨svdU2, svdV2, svdF0.S⟩ Conj.no rhs20 =
      svdF0.solve_lstsq_in_place_with_conj Conj.no rhs20 :=
  (C5_svd_solve_structure svdF0 Conj.no rhs20).2.2.2 svdU2 svdV2 rfl rfl rfl rfl
    (fun a b hb => by
      have hb2 : b < 2 := hb
      simp only [svdU2, svdF0]
      rw [if_pos hb2])
    (fun a b hb => by
      have hb2 : b < 2 := hb
      simp only [svdV2, svdF0]
      rw [if_pos hb2])

/-- C4: for Cholesky, Ldlt and Lblt, `solve_transpose_in_place_with_conj`
forwards the same stored arrays to the same kernel solver as
`solve_in_place_with_conj`, with the conjugation flag composed with
`Conj::Yes` and nothing else changed: for every kernel solver, every
factorization, every flag and every right-hand side the transpose solve
equals the plain solve at `conj.compose(Conj::Yes)`. -/
theorem C4_transpose_solve_is_conj_solve :
    (∀ (k : Mat → Conj → Mat → Mat) (F : Cholesky) (c : Conj) (rhs : Mat),
      F.solve_transpose_in_place_with_conj k c rhs =
        F.solve_in_place_with_conj k (c.compose .yes) rhs) ∧
    (∀ (k : Mat → Diag → Conj → Mat → Mat) (F : Ldlt) (c : Conj) (rhs : Mat),
      F.solve_transpose_in_place_with_conj k c rhs =
        F.solve_in_place_with_conj k (c.compose .yes) rhs) ∧
    (∀ (k : Mat → Diag → Diag → Conj → Perm → Mat → Mat) (F : Lblt) (c : Conj) (rhs : Mat),
      F.solve_transpose_in_place_with_conj k c rhs =
        F.solve_in_place_with_conj k (c.compose .yes) rhs) :=
  ⟨fun _ _ _ _ => rfl, fun _ _ _ _ => rfl, fun _ _ _ _ => rfl⟩

/-- A guarded operation succeeds exactly when its guard holds. -/
theorem ite_some_ne_none {α : Type} (P : Prop) [Decidable P] (x : α) :
    (if P then some x else none) ≠ none ↔ P := by
  by_cases h : P <;> simp [h]

/-- C7: every public solve, transpose-solve, least-squares and inverse
operation checks its shape precondition on entry and panics when it is
violated, proceeding only when it holds: solves and transpose solves
require a square factorization with `rhs.nrows()` equal to its dimension;
least-squares requires `nrows ≥ ncols` and `rhs.nrows() = nrows`; inverse
requires a square factorization. (For the Cholesky family the check lives
in the kernel solver, modelled from the spec; the factorization-square
half of its condition is `L.nrows = L.ncols`.) -/
theorem C7_shape_preconditions :
    (∀ (k : Mat → Conj → Mat → Mat) (F : Cholesky) (c : Conj) (rhs : Mat),
      Cholesky.solve_in_place_checked k F c rhs ≠ none ↔
        (F.nrows = F.ncols ∧ rhs.nrows = F.nrows)) ∧
    (∀ (k : Mat → Conj → Mat → Mat) (F : Cholesky) (c : Conj) (rhs : Mat),
      Cholesky.solve_transpose_in_place_checked k F c rhs ≠ none ↔
        (F.nrows = F.ncols ∧ rhs.nrows = F.nrows)) ∧
    (∀ (k : Mat → Diag → Conj → Mat → Mat) (F : Ldlt) (c : Conj) (rhs : Mat),
      Ldlt.solve_in_place_checked k F c rhs ≠ none ↔
        (F.nrows = F.ncols ∧ rhs.nrows = F.nrows)) ∧
    (∀ (k : Mat → Diag → Conj → Mat → Mat) (F : Ldlt) (c : Conj) (rhs : Mat),
      Ldlt.solve_transpose_in_place_checked k F c rhs ≠ none ↔
        (F.nrows = F.ncols ∧ rhs.nrows = F.nrows)) ∧
    (∀ (k : Mat → Diag → Diag → Conj → Perm → Mat → Mat) (F : Lblt) (c : Conj) (rhs : Mat),
      Lblt.solve_in_place_checked k F c rhs ≠ none ↔
        (F.nrows = F.ncols ∧ rhs.nrows = F.nrows)) ∧
    (∀ (k : Mat → Diag → Diag → Conj → Perm → Mat → Mat) (F : Lblt) (c : Conj) (rhs : Mat),
      Lblt.solve_transpose_in_place_checked k F c rhs ≠ none ↔
        (F.nrows = F.ncols ∧ rhs.nrows = F.nrows)) ∧
    (∀ (k : Mat → Mat → Perm → Conj → Mat → Mat) (F : PartialPivLu) (c : Conj) (rhs : Mat),
      PartialPivLu.solve_in_place_checked k F c rhs ≠ none ↔
        (F.nrows = F.ncols ∧ rhs.nrows = F.nrows)) ∧
    (∀ (k : Mat → Mat → Perm → Conj → Mat → Mat) (F : PartialPivLu) (c : Conj) (rhs : Mat),
      PartialPivLu.solve_transpose_in_place_checked k F c rhs ≠ none ↔
        (F.nrows = F.ncols ∧ rhs.nrows = F.nrows)) ∧
    (∀ (k : Mat → Mat → Perm → Mat) (F : PartialPivLu),
      PartialPivLu.inverse_checked k F ≠ none ↔ F.nrows = F.ncols) ∧
    (∀ (k : Mat → Mat → Perm → Perm → Conj → Mat → Mat) (F : FullPivLu) (c : Conj) (rhs : Mat),
      FullPivLu.solve_in_place_checked k F c rhs ≠ none ↔
        (F.nrows = F.ncols ∧ rhs.nrows = F.nrows)) ∧
    (∀ (k : Mat → Mat → Perm → Perm → Conj → Mat → Mat) (F : FullPivLu) (c : Conj) (rhs : Mat),
      FullPivLu.solve_transpose_in_place_checked k F c rhs ≠ none ↔
        (F.nrows = F.ncols ∧ rhs.nrows = F.nrows)) ∧
    (∀ (k : Mat → Mat → Perm → Perm → Mat) (F : FullPivLu),
      FullPivLu.inverse_checked k F ≠ none ↔ F.nrows = F.ncols) ∧
    (∀ (k : Mat → Mat → Mat → Conj → Mat → Mat) (F : Qr) (c : Conj) (rhs : Mat),
      Qr.solve_in_place_checked k F c rhs ≠ none ↔
        (F.nrows = F.ncols ∧ rhs.nrows = F.nrows)) ∧
    (∀ (k : Mat → Mat → Mat → Conj → Mat → Mat) (F : Qr) (c : Conj) (rhs : Mat),
      Qr.solve_transpose_in_place_checked k F c rhs ≠ none ↔
        (F.nrows = F.ncols ∧ rhs.nrows = F.nrows)) ∧
    (∀ (k : Mat → Mat → Mat → Conj → Mat → Mat) (F : Qr) (c : Conj) (rhs : Mat),
      Qr.solve_lstsq_in_place_checked k F c rhs ≠ none ↔
        (F.nrows ≥ F.ncols ∧ rhs.nrows = F.nrows)) ∧
    (∀ (k : Mat → Mat → Mat → Mat) (F : Qr),
      Qr.inverse_checked k F ≠ none ↔ F.nrows = F.ncols) ∧
    (∀ (k : Mat → Mat → Mat → Perm → Conj → Mat → Mat) (F : ColPivQr) (c : Conj) (rhs : Mat),
      ColPivQr.solve_in_place_checked k F c rhs ≠ none ↔
        (F.nrows = F.ncols ∧ rhs.nrows = F.nrows)) ∧
    (∀ (k : Mat → Mat → Mat → Perm → Conj → Mat → Mat) (F : ColPivQr) (c : Conj) (rhs : Mat),
      ColPivQr.solve_transpose_in_place_checked k F c rhs ≠ none ↔
        (F.nrows = F.ncols ∧ rhs.nrows = F.nrows)) ∧
    (∀ (k : Mat → Mat → Mat → Perm → Conj → Mat → Mat) (F : ColPivQr) (c : Conj) (rhs : Mat),
      ColPivQr.solve_lstsq_in_place_checked k F c rhs ≠ none ↔
        (F.nrows ≥ F.ncols ∧ rhs.nrows = F.nrows)) ∧
    (∀ (k : Mat → Mat → Mat → Perm → Mat) (F : ColPivQr),
      ColPivQr.inverse_checked k F ≠ none ↔ F.nrows = F.ncols) ∧
    (∀ (F : Svd) (c : Conj) (rhs : Mat),
      Svd.solve_in_place_checked F c rhs ≠ none ↔
        (F.nrows = F.ncols ∧ rhs.nrows = F.nrows)) ∧
    (∀ (F : Svd) (c : Conj) (rhs : Mat),
      Svd.solve_transpose_in_place_checked F c rhs ≠ none ↔
        (F.nrows = F.ncols ∧ rhs.nrows = F.nrows)) ∧
    (∀ (F : Svd) (c : Conj) (rhs : Mat),
      Svd.solve_lstsq_in_place_checked F c rhs ≠ none ↔
        (F.nrows ≥ F.ncols ∧ rhs.nrows = F.nrows)) ∧
    (∀ F : Svd, Svd.inverse_checked F ≠ none ↔ F.nrows = F.ncols) ∧
    (∀ (F : SelfAdjointEigen) (c : Conj) (rhs : Mat),
      SelfAdjointEigen.solve_in_place_checked F c rhs ≠ none ↔
        (F.nrows = F.ncols ∧ rhs.nrows = F.nrows)) ∧
    (∀ (F : SelfAdjointEigen) (c : Conj) (rhs : Mat),
      SelfAdjointEigen.solve_transpose_in_place_checked F c rhs ≠ none ↔
        (F.nrows = F.ncols ∧ rhs.nrows = F.nrows)) ∧
    (∀ F : SelfAdjointEigen,
      SelfAdjointEigen.inverse_checked F ≠ none ↔ F.nrows = F.ncols) := by
  refine ⟨?_, ?_, ?_, ?_, ?_, ?_, ?_, ?_, ?_, ?_, ?_, ?_, ?_, ?_, ?_, ?_, ?_, ?_,
    ?_, ?_, ?_, ?_, ?_, ?_, ?_, ?_, ?_⟩ <;>
    intros <;>
    simp only [Cholesky.solve_in_place_checked, Cholesky.solve_transpose_in_place_checked,
      Ldlt.solve_in_place_checked, Ldlt.solve_transpose_in_place_checked,
      Lblt.solve_in_place_checked, Lblt.solve_transpose_in_place_checked,
      PartialPivLu.solve_in_place_checked, PartialPivLu.solve_transpose_in_place_checked,
      PartialPivLu.inverse_checked, FullPivLu.solve_in_place_checked,
      FullPivLu.solve_transpose_in_place_checked, FullPivLu.inverse_checked,
      Qr.solve_in_place_checked, Qr.solve_transpose_in_place_checked,
      Qr.solve_lstsq_in_place_checked, Qr.inverse_checked,
      ColPivQr.solve_in_place_checked, ColPivQr.solve_transpose_in_place_checked,
      ColPivQr.solve_lstsq_in_place_checked, ColPivQr.inverse_checked,
      Svd.solve_in_place_checked, Svd.solve_transpose_in_place_checked,
      Svd.solve_lstsq_in_place_checked, Svd.inverse_checked,
      SelfAdjointEigen.solve_in_place_checked,
      SelfAdjointEigen.solve_transpose_in_place_checked,
      SelfAdjointEigen.inverse_checked, selfAdjointSolveShapeOk, ite_some_ne_none,
      Cholesky.nrows, Cholesky.ncols, Ldlt.nrows, Ldlt.ncols, Lblt.nrows, Lblt.ncols,
      PartialPivLu.nrows, PartialPivLu.ncols, FullPivLu.nrows, FullPivLu.ncols,
      Qr.nrows, Qr.ncols, ColPivQr.nrows, ColPivQr.ncols, Svd.nrows, Svd.ncols,
      SelfAdjointEigen.nrows, SelfAdjointEigen.ncols, true_and, and_true] <;>
    omega

/-- C7 witness: the tall concrete `Qr` object passes the least-squares
shape check with a 3-row right-hand side, and the square concrete `Svd`
object fails the solve shape check against the same 3-row right-hand
side. -/
theorem C7_shape_preconditions_witness :
    Qr.solve_lstsq_in_place_checked kQrSolve qrTall0 Conj.no rhs30 ≠ none ∧
    ¬(Svd.solve_in_place_checked svdF0 Conj.no rhs30 ≠ none) :=
  ⟨(C7_shape_preconditions.2.2.2.2.2.2.2.2.2.2.2.2.2.2.1 kQrSolve qrTall0 Conj.no
      rhs30).mpr (by decide),
    fun h =>
      absurd ((C7_shape_preconditions.2.2.2.2.2.2.2.2.2.2.2.2.2.2.2.2.2.2.2.2.1 svdF0
        Conj.no rhs30).mp h) (by decide)⟩

/-- C10: the Cholesky, Ldlt and Lblt constructors with `side = Lower`
read only the lower triangle (diagonal included) of their input: two
same-shaped matrices agreeing there produce identical factorization
results for every kernel, because the working copy is a zeroed matrix
filled by `copy_from_triangular_lower`; with `side = Upper`, symmetric
statement for the upper triangle (read through the adjoint). -/
theorem C10_constructors_read_one_triangle (A B : Mat) (hr : A.nrows = B.nrows)
    (hc : A.ncols = B.ncols) :
    ((∀ i, i < A.nrows → ∀ j, j ≤ i → A.entry i j = B.entry i j) →
      ∀ (k : Mat → Except LltError Mat) (k2 : Mat → Except LdltError Mat)
        (kb : Mat → BkOut),
        Cholesky.new k A .lower = Cholesky.new k B .lower ∧
        Ldlt.new k2 A .lower = Ldlt.new k2 B .lower ∧
        Lblt.new kb A .lower = Lblt.new kb B .lower) ∧
    ((∀ i, i < A.nrows → ∀ j, i ≤ j → j < A.ncols → A.entry i j = B.entry i j) →
      ∀ (k : Mat → Except LltError Mat) (k2 : Mat → Except LdltError Mat)
        (kb : Mat → BkOut),
        Cholesky.new k A .upper = Cholesky.new k B .upper ∧
        Ldlt.new k2 A .upper = Ldlt.new k2 B .upper ∧
        Lblt.new kb A .upper = Lblt.new kb B .upper) := by
  by_cases hsq : A.nrows = A.ncols
  · have hsqB : B.nrows = B.ncols := by omega
    constructor
    · intro hlow k k2 kb
      have hL : copyFromTriangularLower (GMat.zeros A.nrows A.nrows) A =
          copyFromTriangularLower (GMat.zeros B.nrows B.nrows) B := by
        apply GMat.ext'
        · simp [copyFromTriangularLower, GMat.zeros, hr]
        · simp [copyFromTriangularLower, GMat.zeros, hr]
        · intro i j
          simp only [copyFromTriangularLower, GMat.zeros, ← hr]
          split_ifs with h
          · exact hlow i h.1 j h.2.2
          · rfl
      refine ⟨?_, ?_, ?_⟩
      · simp only [Cholesky.new]
        rw [if_pos hsq, if_pos hsqB, hL]
      · simp only [Ldlt.new]
        rw [if_pos hsq, if_pos hsqB, hL]
      · simp only [Lblt.new]
        rw [if_pos hsq, if_pos hsqB, hL]
    · intro hup k k2 kb
      have hL : copyFromTriangularLower (GMat.zeros A.nrows A.nrows) (GMat.adjoint A) =
          copyFromTriangularLower (GMat.zeros B.nrows B.nrows) (GMat.adjoint B) := by
        apply GMat.ext'
        · simp [copyFromTriangularLower, GMat.zeros, hr]
        · simp [copyFromTriangularLower, GMat.zeros, hr]
        · intro i j
          simp only [copyFromTriangularLower, GMat.adjoint, GMat.zeros, ← hr]
          split_ifs with h
          · rw [hup j (by omega) i h.2.2 (by omega)]
          · rfl
      refine ⟨?_, ?_, ?_⟩
      · simp only [Cholesky.new]
        rw [if_pos hsq, if_pos hsqB, hL]
      · simp only [Ldlt.new]
        rw [if_pos hsq, if_pos hsqB, hL]
      · simp only [Lblt.new]
        rw [if_pos hsq, if_pos hsqB, hL]
  · have hsqB : ¬(B.nrows = B.ncols) := by omega
    constructor <;>
      · intro _ k k2 kb
        refine ⟨?_, ?_, ?_⟩ <;>
          · simp only [Cholesky.new, Ldlt.new, Lblt.new]
            rw [if_neg hsq, if_neg hsqB]

/-- C10 witness: the three constructors at two concrete 2×2 matrices that
agree on the lower triangle but differ strictly above the diagonal (and
symmetrically for `side = Upper`), under trivial kernels. -/
theorem C10_constructors_read_one_triangle_witness :
    (Cholesky.new kLltOk lowA0 .lower = Cholesky.new kLltOk lowB0 .lower ∧
      Ldlt.new kLdltOk lowA0 .lower = Ldlt.new kLdltOk lowB0 .lower ∧
      Lblt.new kBk0 lowA0 .lower = Lblt.new kBk0 lowB0 .lower) ∧
    (Cholesky.new kLltOk upA0 .upper = Cholesky.new kLltOk upB0 .upper ∧
      Ldlt.new kLdltOk upA0 .upper = Ldlt.new kLdltOk upB0 .upper ∧
      Lblt.new kBk0 upA0 .upper = Lblt.new kBk0 upB0 .upper) :=
  ⟨(C10_constructors_read_one_triangle lowA0 lowB0 rfl rfl).1
      (fun i _ j hj => by
        simp only [lowA0, lowB0]
        rw [if_pos hj, if_pos hj]) kLltOk kLdltOk kBk0,
    (C10_constructors_read_one_triangle upA0 upB0 rfl rfl).2
      (fun i _ j hij _ => by
        simp only [upA0, upB0]
        rw [if_pos hij, if_pos hij]) kLltOk kLdltOk kBk0⟩

/-- C6: `ColPivQr::reconstruct` writes `R` into the leading `min(m, n)`
rows of a zeroed `m×n` matrix, applies the implicit block-Householder `Q`
on the left, and permutes the columns by the inverse of the column
permutation; whenever the factorization satisfies the kernel postcondition
`(Q · R_padded)[:, j] = A[:, P.fwd(j)]` (that is, `Q · R = A · P`) with a
valid permutation, the reconstructed matrix equals `A` — i.e.
`Q · R · Pᵀ = A`. -/
theorem C6_colpivqr_reconstruct (Qof : Mat → Mat → Mat) (F : ColPivQr) (A : Mat)
    (hQm : (Qof F.Q_basis F.Q_coeff).nrows = F.Q_basis.nrows)
    (hinv : ∀ j, j < F.R.ncols →
      (Perm.into_inverse F.P).fwd j < F.R.ncols ∧
      F.P.fwd ((Perm.into_inverse F.P).fwd j) = j)
    (hQR : ∀ i, i < F.Q_basis.nrows → ∀ j, j < F.R.ncols →
      (matmul (Qof F.Q_basis F.Q_coeff)
        (copyTriangularUpperIntoLeadingRows
          (GMat.zeros F.Q_basis.nrows F.R.ncols) F.R
          (min F.Q_basis.nrows F.R.ncols) F.R.ncols)).entry i j =
        A.entry i (F.P.fwd j)) :
    (F.reconstruct Qof).nrows = F.Q_basis.nrows ∧
    (F.reconstruct Qof).ncols = F.R.ncols ∧
    ∀ i, i < F.Q_basis.nrows → ∀ j, j < F.R.ncols →
      (F.reconstruct Qof).entry i j = A.entry i j := by
  refine ⟨hQm, rfl, ?_⟩
  intro i hi j hj
  have h1 := (hinv j hj).1
  have h2 := (hinv j hj).2
  show (matmul (Qof F.Q_basis F.Q_coeff)
      (copyTriangularUpperIntoLeadingRows
        (GMat.zeros F.Q_basis.nrows F.R.ncols) F.R
        (min F.Q_basis.nrows F.R.ncols) F.R.ncols)).entry i
      ((Perm.into_inverse F.P).fwd j) = A.entry i j
  rw [hQR i hi _ h1, h2]

/-- C6 witness: the reconstruction identity at a concrete 1×1
column-pivoted QR object whose implicit `Q` is the identity and whose
column permutation is the identity. -/
theorem C6_colpivqr_reconstruct_witness :
    (qrF1.reconstruct qrQofId1).nrows = qrF1.Q_basis.nrows ∧
    (qrF1.reconstruct qrQofId1).ncols = qrF1.R.ncols ∧
    ∀ i, i < qrF1.Q_basis.nrows → ∀ j, j < qrF1.R.ncols →
      (qrF1.reconstruct qrQofId1).entry i j = qrA1.entry i j :=
  C6_colpivqr_reconstruct qrQofId1 qrF1 qrA1 rfl (by decide)
    (by
      intro i hi j hj
      have hi0 : i = 0 := by
        simpa [qrF1] using hi
      have hj0 : j = 0 := by
        simpa [qrF1] using hj
      subst hi0
      subst hj0
      show (∑ k ∈ Finset.range 1,
          CQ.mul (Conj.apply .no ((qrQofId1 qrF1.Q_basis qrF1.Q_coeff).entry 0 k))
            (Conj.apply .no ((copyTriangularUpperIntoLeadingRows
              (GMat.zeros qrF1.Q_basis.nrows qrF1.R.ncols) qrF1.R
              (min qrF1.Q_basis.nrows qrF1.R.ncols) qrF1.R.ncols).entry k 0))) =
        qrA1.entry 0 (qrF1.P.fwd 0)
      simp only [Finset.sum_range_one, qrQofId1, qrF1, qrA1, Conj.apply,
        copyTriangularUpperIntoLeadingRows, GMat.zeros, Perm.fwd]
      norm_num [CQ.mul]
      exact ⟨rfl, rfl⟩)

/-- C8: `Cholesky::new_imp` returns an error exactly when the LLT kernel
reports one, propagated unchanged, and exposes only a complete object in
the success case; `Lblt::new_imp` always returns a complete Bunch–Kaufman
factorization (its kernel is infallible; the only assert on the way, in
`Perm::new_unchecked`, always passes because the two permutation buffers
are slices of length `n ≤ isize::MAX`). -/
theorem C8_cholesky_fallible_lblt_infallible :
    (∀ (k : Mat → Except LltError Mat) (L : Mat) (e : LltError),
      Cholesky.new_imp k L = .error e ↔ k L = .error e) ∧
    (∀ (k : Mat → Except LltError Mat) (L : Mat) (F : Cholesky),
      Cholesky.new_imp k L = .ok F →
        ∃ L', k L = .ok L' ∧ F = ⟨zeroStrictUpper L'⟩) ∧
    (∀ (kb : Mat → BkOut) (L : Mat), L.nrows ≤ Perm.signedMax →
      Lblt.new_imp kb L = some
        ⟨zeroStrictUpper (fillDiagonal (kb L).L 1),
          ⟨(kb L).L.nrows, fun i => (kb L).L.entry i i⟩,
          (kb L).subdiag,
          ⟨(List.range L.nrows).map (kb L).perm_fwd,
            (List.range L.nrows).map (kb L).perm_bwd⟩⟩) := by
  refine ⟨?_, ?_, ?_⟩
  · intro k L e
    unfold Cholesky.new_imp
    cases h : k L <;> simp
  · intro k L F h
    unfold Cholesky.new_imp at h
    cases hk : k L with
    | error e => rw [hk] at h; exact absurd h (by simp)
    | ok L' =>
      rw [hk] at h
      simp only [Except.ok.injEq] at h
      exact ⟨L', rfl, h.symm⟩
  · intro kb L h
    have hc : (List.map (kb L).perm_fwd (List.range L.nrows)).length =
        (List.map (kb L).perm_bwd (List.range L.nrows)).length ∧
        (List.map (kb L).perm_fwd (List.range L.nrows)).length ≤ Perm.signedMax := by
      simp [h]
    simp only [Lblt.new_imp, Perm.new_unchecked]
    rw [if_pos hc]

/-- C8 witness: at a kernel that succeeds returning its input, the
success case of `Cholesky::new_imp` and the totality of `Lblt::new_imp`
at a concrete 3×2 working matrix. -/
theorem C8_witness :
    (∃ L', (fun M => (Except.ok M : Except LltError Mat)) tall32 = .ok L' ∧
      (⟨zeroStrictUpper tall32⟩ : Cholesky) = ⟨zeroStrictUpper L'⟩) ∧
    Lblt.new_imp (fun M => ⟨M, ⟨M.nrows, fun _ => 0⟩, id, id⟩) tall32 = some
      ⟨zeroStrictUpper (fillDiagonal tall32 1),
        ⟨tall32.nrows, fun i => tall32.entry i i⟩,
        ⟨tall32.nrows, fun _ => 0⟩,
        ⟨(List.range tall32.nrows).map id, (List.range tall32.nrows).map id⟩⟩ :=
  ⟨C8_cholesky_fallible_lblt_infallible.2.1 (fun M => .ok M) tall32
      ⟨zeroStrictUpper tall32⟩ rfl,
    C8_cholesky_fallible_lblt_infallible.2.2
      (fun M => ⟨M, ⟨M.nrows, fun _ => 0⟩, id, id⟩) tall32 (by decide)⟩

end Faer

